import Mathlib

/-!
Verification development for the kreuzberg PDF table engine.

Coordinates that the source holds in `f64`/`f32` are embedded as `ℚ`:
every operation the verified claims exercise (comparison, `min`, `max`,
addition, subtraction, multiplication, division by nonzero constants) is
exact on the dyadic values involved, so the rational model is faithful.
Rust `sort_by` calls are stable sorts and are embedded as
`List.insertionSort`, which is stable. Hash-map/tree-map keys that the
source takes as `f64::to_bits` patterns are embedded as the rational
values themselves: on the non-negative, non-NaN coordinates produced by
the pipeline, bit-pattern equality and ordering agree with value
equality and ordering. Rust `String` values are embedded as `List Char`.
-/

unseal Rat.add
unseal Rat.sub
unseal Rat.mul
unseal Rat.inv
unseal Nat.gcd

namespace Kreuzberg

/-! ## Generic helpers: whitespace trimming and lexicographic order -/

/-- Leading-whitespace removal, the embedding of Rust `str::trim_start`. -/
def wsTrimStart (l : List Char) : List Char := l.dropWhile Char.isWhitespace

/-- Trailing-whitespace removal, the embedding of Rust `str::trim_end`. -/
def wsTrimEnd (l : List Char) : List Char :=
  (l.reverse.dropWhile Char.isWhitespace).reverse

/-- Both-ends trimming, the embedding of Rust `str::trim`. -/
def wsTrim (l : List Char) : List Char := wsTrimEnd (wsTrimStart l)

/-- Lexicographic non-strict order on pairs, the order realised by Rust
`a.partial_cmp(b).unwrap().then(c.partial_cmp(d).unwrap())` comparators. -/
def lexLe {α β : Type} [LinearOrder α] [LinearOrder β] (p q : α × β) : Prop :=
  p.1 < q.1 ∨ (p.1 = q.1 ∧ p.2 ≤ q.2)

instance lexLe.decidable {α β : Type} [LinearOrder α] [LinearOrder β] :
    DecidableRel (@lexLe α β _ _) := fun p q => by
  unfold lexLe; infer_instance

theorem lexLe_total {α β : Type} [LinearOrder α] [LinearOrder β] (p q : α × β) :
    lexLe p q ∨ lexLe q p := by
  rcases lt_trichotomy p.1 q.1 with h | h | h
  · exact Or.inl (Or.inl h)
  · rcases le_total p.2 q.2 with h2 | h2
    · exact Or.inl (Or.inr ⟨h, h2⟩)
    · exact Or.inr (Or.inr ⟨h.symm, h2⟩)
  · exact Or.inr (Or.inl h)

theorem lexLe_trans {α β : Type} [LinearOrder α] [LinearOrder β] (p q r : α × β) :
    lexLe p q → lexLe q r → lexLe p r := by
  rintro (h1 | ⟨h1, h1'⟩) (h2 | ⟨h2, h2'⟩)
  · exact Or.inl (h1.trans h2)
  · exact Or.inl (h2 ▸ h1)
  · exact Or.inl (h1 ▸ h2)
  · exact Or.inr ⟨h1.trans h2, h1'.trans h2'⟩

instance lexLe.isTotal {α β : Type} [LinearOrder α] [LinearOrder β] :
    IsTotal (α × β) lexLe := ⟨lexLe_total⟩

instance lexLe.isTrans {α β : Type} [LinearOrder α] [LinearOrder β] :
    IsTrans (α × β) lexLe := ⟨lexLe_trans⟩

/-! ## table_geometry.rs -/

/-- `Orientation` from table_geometry.rs. -/
inductive Orientation : Type where
  | Horizontal : Orientation
  | Vertical : Orientation
deriving DecidableEq, Repr

/-- `EdgeType` from table_geometry.rs. -/
inductive EdgeType : Type where
  | Line : EdgeType
  | RectEdge : EdgeType
  | CurveEdge : EdgeType
deriving DecidableEq, Repr

/-- `Bbox = (f64, f64, f64, f64)` from table_geometry.rs: the tuple
components `(x0, top, x1, bottom)` are named fields here. -/
structure Bbox : Type where
  x0 : ℚ
  top : ℚ
  x1 : ℚ
  bottom : ℚ
deriving DecidableEq, Repr

/-- `Edge` from table_geometry.rs. -/
structure Edge : Type where
  x0 : ℚ
  x1 : ℚ
  top : ℚ
  bottom : ℚ
  width : ℚ
  height : ℚ
  orientation : Orientation
  edge_type : EdgeType
deriving DecidableEq, Repr

/-- `Edge::horizontal` from table_geometry.rs. -/
def Edge.horizontal (x0 x1 y : ℚ) (edge_type : EdgeType) : Edge :=
  { x0 := x0, x1 := x1, top := y, bottom := y, width := x1 - x0, height := 0,
    orientation := Orientation.Horizontal, edge_type := edge_type }

/-- `Edge::vertical` from table_geometry.rs. -/
def Edge.vertical (x top bottom : ℚ) (edge_type : EdgeType) : Edge :=
  { x0 := x, x1 := x, top := top, bottom := bottom, width := 0,
    height := bottom - top, orientation := Orientation.Vertical,
    edge_type := edge_type }

/-- `clip_edges` from table_geometry.rs: drop edges outside the clip
bbox and trim those partially inside. -/
def clip_edges (edges : List Edge) (clip : Bbox) : List Edge :=
  edges.filterMap fun edge =>
    match edge.orientation with
    | Orientation.Horizontal =>
      if edge.top < clip.top ∨ edge.top > clip.bottom then none
      else
        let new_x0 := max edge.x0 clip.x0
        let new_x1 := min edge.x1 clip.x1
        if new_x0 ≥ new_x1 then none
        else some (Edge.horizontal new_x0 new_x1 edge.top edge.edge_type)
    | Orientation.Vertical =>
      if edge.x0 < clip.x0 ∨ edge.x0 > clip.x1 then none
      else
        let new_top := max edge.top clip.top
        let new_bottom := min edge.bottom clip.bottom
        if new_top ≥ new_bottom then none
        else some (Edge.vertical edge.x0 new_top new_bottom edge.edge_type)

/-! ## C5: degenerate clips -/

/-- C5 (amended): for every clip bbox that is strictly degenerate
(`x0 > x1` or `top > bottom`) and every list of edges, `clip_edges`
returns the empty list. (The non-strict degenerate clips of the original
claim can keep edges lying exactly on the collapsed axis, see the
counterexample.) -/
theorem clip_edges_strict_degenerate (edges : List Edge) (clip : Bbox)
    (h : clip.x0 > clip.x1 ∨ clip.top > clip.bottom) :
    clip_edges edges clip = [] := by
  rw [clip_edges, List.filterMap_eq_nil_iff]
  intro e _
  rcases hor : e.orientation with _ | _ <;> simp only [hor]
  · by_cases hy : e.top < clip.top ∨ e.top > clip.bottom
    · simp [hy]
    · push_neg at hy
      rcases h with h | h
      · have hge : min e.x1 clip.x1 ≤ max e.x0 clip.x0 :=
          le_trans (min_le_right _ _) (le_trans h.le (le_max_right _ _))
        simp [hy.1, hy.2, not_lt.mpr hy.1, not_lt.mpr hy.2, hge, ge_iff_le]
      · exact absurd (hy.1.trans hy.2) (not_le.mpr h)
  · by_cases hx : e.x0 < clip.x0 ∨ e.x0 > clip.x1
    · simp [hx]
    · push_neg at hx
      rcases h with h | h
      · exact absurd (hx.1.trans hx.2) (not_le.mpr h)
      · have hge : min e.bottom clip.bottom ≤ max e.top clip.top :=
          le_trans (min_le_right _ _) (le_trans h.le (le_max_right _ _))
        simp [not_lt.mpr hx.1, not_lt.mpr hx.2, hge, ge_iff_le]

/-- C5 counterexample: the clip `(0, 50, 100, 50)` is degenerate in the
sense of the claim (`top ≥ bottom`), yet `clip_edges` keeps the
horizontal edge running along `y = 50`: the result is not empty. -/
theorem clip_edges_degenerate_counterexample :
    (Bbox.mk 0 50 100 50).top ≥ (Bbox.mk 0 50 100 50).bottom ∧
      clip_edges [Edge.horizontal 0 100 50 EdgeType.Line] (Bbox.mk 0 50 100 50) ≠ [] := by
  constructor
  · norm_num
  · norm_num [clip_edges, Edge.horizontal]
    simp

/-- C5 witness: the amended theorem applied to a concrete strictly
degenerate clip. -/
theorem clip_edges_strict_degenerate_witness :
    (5:ℚ) > 3 ∧
      clip_edges [Edge.vertical 4 0 10 EdgeType.Line] (Bbox.mk 5 0 3 10) = [] :=
  ⟨by norm_num,
    clip_edges_strict_degenerate [Edge.vertical 4 0 10 EdgeType.Line]
      (Bbox.mk 5 0 3 10) (Or.inl (by norm_num))⟩

/-! ## table_finder.rs: intersections, cells, tables -/

/-- `IntersectionEdges` from table_finder.rs: indices of the vertical and
horizontal edges meeting at an intersection point. -/
structure IntersectionEdges : Type where
  vertical : List Nat
  horizontal : List Nat
deriving DecidableEq, Repr

/-- A vertex key. The source keys vertices by the `f64` bit patterns
`(x.to_bits(), y.to_bits())`; the embedding keys them by the values. -/
abbrev Vertex : Type := ℚ × ℚ

/-- Association-list embedding of the `HashMap` update in
`edges_to_intersections`: `entry(vertex).or_insert_with(empty)` followed
by pushing one vertical and one horizontal edge index. New keys append
at the end; map order never matters downstream because
`intersections_to_cells` sorts the keys. -/
def insertIntersection : List (Vertex × IntersectionEdges) → Vertex → Nat → Nat →
    List (Vertex × IntersectionEdges)
  | [], k, vi, hi => [(k, ⟨[vi], [hi]⟩)]
  | (k', e) :: rest, k, vi, hi =>
    if k' = k then
      (k', ⟨e.vertical ++ [vi], e.horizontal ++ [hi]⟩) :: rest
    else
      (k', e) :: insertIntersection rest k vi hi

/-- `edges_to_intersections` from table_finder.rs: for every
(vertical, horizontal) edge pair within the tolerances, record the
vertex `(v.x0, h.top)` carrying the indices of the two edges. -/
def edges_to_intersections (edges : List Edge) (x_tolerance y_tolerance : ℚ) :
    List (Vertex × IntersectionEdges) :=
  let v_edges := (edges.enum).filter fun ie => ie.2.orientation = Orientation.Vertical
  let h_edges := (edges.enum).filter fun ie => ie.2.orientation = Orientation.Horizontal
  v_edges.foldl
    (fun m vi =>
      h_edges.foldl
        (fun m hi =>
          if vi.2.top ≤ hi.2.top + y_tolerance ∧ vi.2.bottom ≥ hi.2.top - y_tolerance ∧
              vi.2.x0 ≥ hi.2.x0 - x_tolerance ∧ vi.2.x0 ≤ hi.2.x1 + x_tolerance then
            insertIntersection m (vi.2.x0, hi.2.top) vi.1 hi.1
          else m)
        m)
    []

/-- Key lookup in the intersection map. -/
def interLookup (m : List (Vertex × IntersectionEdges)) (k : Vertex) :
    Option IntersectionEdges :=
  (m.find? fun kv => kv.1 = k).map (fun kv => kv.2)

/-- The `edge_connects` closure inside `intersections_to_cells`: two
vertices are connected when they share a vertical edge index (same x) or
a horizontal edge index (same y). -/
def edge_connects (m : List (Vertex × IntersectionEdges)) (p1 p2 : Vertex) : Bool :=
  match interLookup m p1, interLookup m p2 with
  | some i1, some i2 =>
    if p1.1 = p2.1 then i2.vertical.any fun e => i1.vertical.contains e
    else if p1.2 = p2.2 then i2.horizontal.any fun e => i1.horizontal.contains e
    else false
  | _, _ => false

/-- The point loop of `intersections_to_cells`: for each vertex in the
sorted list, pair each connected vertex below with the first connected
vertex to the right that completes a rectangle; `break` after the first
success for a given below-vertex. -/
def cellsLoop (m : List (Vertex × IntersectionEdges)) : List Vertex → List Bbox
  | [] => []
  | pt :: rest =>
    let below := rest.filter fun p => p.1 = pt.1
    let right := rest.filter fun p => p.2 = pt.2
    (below.filterMap fun below_pt =>
      if edge_connects m pt below_pt then
        (right.find? fun right_pt =>
            edge_connects m pt right_pt &&
            (interLookup m (right_pt.1, below_pt.2)).isSome &&
            edge_connects m (right_pt.1, below_pt.2) right_pt &&
            edge_connects m (right_pt.1, below_pt.2) below_pt).map
          fun right_pt => Bbox.mk pt.1 pt.2 right_pt.1 below_pt.2
      else none) ++ cellsLoop m rest

/-- `intersections_to_cells` from table_finder.rs. The `points.sort()`
on bit-pattern pairs is embedded as a lexicographic sort on the values
(the sorted result is order-independent since the keys are distinct). -/
def intersections_to_cells (intersections : List (Vertex × IntersectionEdges))
    (_edges : List Edge) : List Bbox :=
  let points := List.insertionSort lexLe (intersections.map (fun kv => kv.1))
  cellsLoop intersections points

/-- `bbox_corners` from `cells_to_tables`. -/
def bbox_corners (bbox : Bbox) : List Vertex :=
  [(bbox.x0, bbox.top), (bbox.x0, bbox.bottom),
   (bbox.x1, bbox.top), (bbox.x1, bbox.bottom)]

/-- One `retain` sweep of the absorbing loop in `cells_to_tables`:
walk the remaining cells in order, absorbing the first cell
unconditionally when the current group is empty and every later cell
that shares a corner with the accumulated corner set. Returns the new
corner set, the grown group and the kept remainder. -/
def absorbPass : List Vertex → List Bbox → List Bbox →
    List Vertex × List Bbox × List Bbox
  | corners, current, [] => (corners, current, [])
  | corners, current, c :: rest =>
    if current.isEmpty then
      absorbPass (corners ++ bbox_corners c) [c] rest
    else if (bbox_corners c).any fun p => corners.contains p then
      absorbPass (corners ++ bbox_corners c) (current ++ [c]) rest
    else
      let res := absorbPass corners current rest
      (res.1, res.2.1, c :: res.2.2)

/-- The inner fixpoint loop of `cells_to_tables`: repeat `absorbPass`
until a pass absorbs no cell. Every continuing pass strictly grows the
group and the group is bounded by the cell count, so a fuel of
`remaining.length + 1` always reaches the fixpoint of the source loop. -/
def absorbLoop : Nat → List Vertex → List Bbox → List Bbox →
    List Bbox × List Bbox
  | 0, _, current, remaining => (current, remaining)
  | fuel + 1, corners, current, remaining =>
    let res := absorbPass corners current remaining
    if res.2.1.length = current.length then (res.2.1, res.2.2)
    else absorbLoop fuel res.1 res.2.1 res.2.2

theorem absorbPass_remaining_le (corners : List Vertex) (current remaining : List Bbox) :
    (absorbPass corners current remaining).2.2.length ≤ remaining.length := by
  induction remaining generalizing corners current with
  | nil => simp [absorbPass]
  | cons c rest ih =>
    unfold absorbPass
    by_cases h1 : current.isEmpty
    · simp only [h1, if_true]
      exact le_trans (ih _ _) (Nat.le_succ _)
    · simp only [h1, if_false]
      by_cases h2 : (bbox_corners c).any fun p => corners.contains p
      · simp only [h2, if_true]
        exact le_trans (ih _ _) (Nat.le_succ _)
      · simp only [h2, if_false, List.length_cons]
        exact Nat.succ_le_succ (ih _ _)

theorem absorbPass_current_le (corners : List Vertex) (current remaining : List Bbox) :
    current.length ≤ (absorbPass corners current remaining).2.1.length := by
  induction remaining generalizing corners current with
  | nil => simp [absorbPass]
  | cons c rest ih =>
    unfold absorbPass
    by_cases h1 : current.isEmpty
    · simp only [h1, if_true]
      have hc : current = [] := List.isEmpty_iff.mp h1
      subst hc
      simp
    · simp only [h1, if_false]
      by_cases h2 : (bbox_corners c).any fun p => corners.contains p
      · simp only [h2, if_true]
        calc current.length ≤ (current ++ [c]).length := by simp
          _ ≤ _ := ih _ _
      · simp only [h2, if_false]
        exact ih _ _

theorem absorbLoop_remaining_le (fuel : Nat) (corners : List Vertex)
    (current remaining : List Bbox) :
    (absorbLoop fuel corners current remaining).2.length ≤ remaining.length := by
  induction fuel generalizing corners current remaining with
  | zero => simp [absorbLoop]
  | succ n ih =>
    unfold absorbLoop
    by_cases h : (absorbPass corners current remaining).2.1.length = current.length
    · simp only [h, if_true]
      exact absorbPass_remaining_le _ _ _
    · simp only [h, if_false]
      exact le_trans (ih _ _ _) (absorbPass_remaining_le _ _ _)

theorem absorbLoop_progress (fuel : Nat) (corners : List Vertex)
    (remaining : List Bbox) (h : remaining ≠ []) :
    (absorbLoop (fuel + 1) corners [] remaining).2.length < remaining.length := by
  match remaining, h with
  | c :: rest, _ =>
    unfold absorbLoop
    have hpass : absorbPass corners [] (c :: rest) =
        absorbPass (corners ++ bbox_corners c) [c] rest := by
      conv_lhs => rw [absorbPass]
      simp
    by_cases hfix : (absorbPass corners [] (c :: rest)).2.1.length = ([] : List Bbox).length
    · exfalso
      rw [hpass] at hfix
      have hcur := absorbPass_current_le (corners ++ bbox_corners c) [c] rest
      simp only [List.length_nil, List.length_singleton] at hfix hcur
      omega
    · simp only [hfix, if_false]
      have h1 : (absorbLoop fuel (absorbPass corners [] (c :: rest)).1
          (absorbPass corners [] (c :: rest)).2.1
          (absorbPass corners [] (c :: rest)).2.2).2.length ≤
          (absorbPass corners [] (c :: rest)).2.2.length := absorbLoop_remaining_le _ _ _ _
      have h2 : (absorbPass corners [] (c :: rest)).2.2.length ≤ rest.length := by
        rw [hpass]
        exact absorbPass_remaining_le _ _ _
      simp only [List.length_cons]
      omega

/-- The within-table cell comparator of `cells_to_tables`:
top-to-bottom then left-to-right. -/
def cellLe (a b : Bbox) : Prop := lexLe (a.top, a.x0) (b.top, b.x0)

instance cellLe.decidable : DecidableRel cellLe := fun a b => by
  unfold cellLe; infer_instance

/-- The `(min top, min x0)` sort key of a cell group: the source folds
`f64::min` from `f64::INFINITY`, embedded as a `min`-fold into
`WithTop ℚ` starting at `⊤`. -/
def tableKey (cells : List Bbox) : WithTop ℚ × WithTop ℚ :=
  (cells.foldl (fun acc c => min acc (c.top : WithTop ℚ)) ⊤,
   cells.foldl (fun acc c => min acc (c.x0 : WithTop ℚ)) ⊤)

/-- The table comparator of the final `tables.sort_by`. -/
def tableLe (a b : List Bbox) : Prop := lexLe (tableKey a) (tableKey b)

instance tableLe.decidable : DecidableRel tableLe := fun a b => by
  unfold tableLe; infer_instance

/-- The outer `while !remaining.is_empty()` loop of `cells_to_tables`:
grow one group to its corner-closure, keep it when it has more than one
cell (sorted top-to-bottom, left-to-right), and continue on the
remainder. -/
def groupLoop (remaining : List Bbox) : List (List Bbox) :=
  if h : remaining = [] then []
  else
    let res := absorbLoop (remaining.length + 1) [] [] remaining
    (if 1 < res.1.length then [List.insertionSort cellLe res.1] else []) ++
      groupLoop res.2
termination_by remaining.length
decreasing_by
  exact absorbLoop_progress remaining.length [] remaining h

/-- `cells_to_tables` from table_finder.rs: group cells sharing corners,
discard singleton groups, sort each kept group top-to-bottom then
left-to-right, and sort the groups by `(min top, min x0)`. -/
def cells_to_tables (cells : List Bbox) : List (List Bbox) :=
  List.insertionSort tableLe (groupLoop cells)

theorem groupLoop_mem {g : List Bbox} :
    ∀ {remaining : List Bbox}, g ∈ groupLoop remaining →
      ∃ cur, g = List.insertionSort cellLe cur ∧ 1 < cur.length := by
  intro remaining
  induction remaining using groupLoop.induct with
  | case1 =>
    rw [groupLoop]
    simp
  | case2 rem hne res ih =>
    intro hg
    rw [groupLoop] at hg
    simp only [dif_neg hne] at hg
    rcases List.mem_append.mp hg with hmem | hmem
    · by_cases hlen : 1 < (absorbLoop (rem.length + 1) [] [] rem).1.length
      · simp only [hlen, if_true, List.mem_singleton] at hmem
        exact ⟨_, hmem, hlen⟩
      · simp [hlen] at hmem
    · exact ih hmem

instance cellLe.isTotal : IsTotal Bbox cellLe :=
  ⟨fun a b => lexLe_total (a.top, a.x0) (b.top, b.x0)⟩

instance cellLe.isTrans : IsTrans Bbox cellLe :=
  ⟨fun a b c => lexLe_trans (a.top, a.x0) (b.top, b.x0) (c.top, c.x0)⟩

instance tableLe.isTotal : IsTotal (List Bbox) tableLe :=
  ⟨fun a b => lexLe_total (tableKey a) (tableKey b)⟩

instance tableLe.isTrans : IsTrans (List Bbox) tableLe :=
  ⟨fun a b c => lexLe_trans (tableKey a) (tableKey b) (tableKey c)⟩

/-- C6: for every input cell list, every group returned by
`cells_to_tables` contains at least 2 cells (singleton groups are
discarded), the groups are sorted ascending by the `(min top, min x0)`
key of their cells, and within each group the cells are sorted
top-to-bottom then left-to-right. -/
theorem cells_to_tables_invariants (cells : List Bbox) :
    List.Sorted tableLe (cells_to_tables cells) ∧
      ∀ g ∈ cells_to_tables cells, 2 ≤ g.length ∧ List.Sorted cellLe g := by
  constructor
  · exact List.sorted_insertionSort tableLe (groupLoop cells)
  · intro g hg
    have hg' : g ∈ groupLoop cells :=
      (List.perm_insertionSort tableLe (groupLoop cells)).mem_iff.mp hg
    rcases groupLoop_mem hg' with ⟨cur, rfl, hlen⟩
    refine ⟨?_, List.sorted_insertionSort cellLe cur⟩
    have hl : (List.insertionSort cellLe cur).length = cur.length :=
      (List.perm_insertionSort cellLe cur).length_eq
    omega

/-- C6 witness: the invariants, instantiated at a concrete two-cell
input whose unique group is those two cells. -/
theorem cells_to_tables_invariants_witness :
    2 ≤ ([Bbox.mk 0 0 1 1, Bbox.mk 1 0 2 1] : List Bbox).length ∧
      List.Sorted cellLe [Bbox.mk 0 0 1 1, Bbox.mk 1 0 2 1] :=
  (cells_to_tables_invariants [Bbox.mk 0 0 1 1, Bbox.mk 1 0 2 1]).2
    [Bbox.mk 0 0 1 1, Bbox.mk 1 0 2 1]
    (by
      have hnil : groupLoop [] = [] := by
        rw [groupLoop]
        rfl
      have h1 : absorbLoop (([Bbox.mk 0 0 1 1, Bbox.mk 1 0 2 1] : List Bbox).length + 1)
          [] [] [Bbox.mk 0 0 1 1, Bbox.mk 1 0 2 1] =
          ([Bbox.mk 0 0 1 1, Bbox.mk 1 0 2 1], []) := by decide
      have hgl : groupLoop [Bbox.mk 0 0 1 1, Bbox.mk 1 0 2 1] =
          [[Bbox.mk 0 0 1 1, Bbox.mk 1 0 2 1]] := by
        rw [groupLoop]
        simp only [h1, hnil]
        decide
      simp only [cells_to_tables, hgl]
      decide)

/-! ## C1: the synthetic 3 by 3 grid -/

/-- The synthetic grid of the claim and of the source unit tests:
horizontal edges spanning x = 0..100 at y in {0, 50, 100} followed by
vertical edges spanning y = 0..100 at x in {0, 50, 100}. -/
def gridEdges : List Edge :=
  [Edge.horizontal 0 100 0 EdgeType.Line,
   Edge.horizontal 0 100 50 EdgeType.Line,
   Edge.horizontal 0 100 100 EdgeType.Line,
   Edge.vertical 0 0 100 EdgeType.Line,
   Edge.vertical 50 0 100 EdgeType.Line,
   Edge.vertical 100 0 100 EdgeType.Line]

/-- The six cells the grid produces, in emission order: the four 50-wide
minimal cells plus the two row-spanning cells. -/
def gridCells : List Bbox :=
  [Bbox.mk 0 0 50 50, Bbox.mk 0 0 50 100, Bbox.mk 0 50 50 100,
   Bbox.mk 50 0 100 50, Bbox.mk 50 0 100 100, Bbox.mk 50 50 100 100]

set_option maxRecDepth 8000 in
theorem grid_intersections_eval :
    edges_to_intersections gridEdges 1 1 =
      [((0, 0), ⟨[3], [0]⟩), ((0, 50), ⟨[3], [1]⟩), ((0, 100), ⟨[3], [2]⟩),
       ((50, 0), ⟨[4], [0]⟩), ((50, 50), ⟨[4], [1]⟩), ((50, 100), ⟨[4], [2]⟩),
       ((100, 0), ⟨[5], [0]⟩), ((100, 50), ⟨[5], [1]⟩), ((100, 100), ⟨[5], [2]⟩)] := by
  decide

set_option maxRecDepth 8000 in
theorem grid_cells_eval :
    intersections_to_cells (edges_to_intersections gridEdges 1 1) gridEdges = gridCells := by
  decide

set_option maxRecDepth 8000 in
theorem grid_tables_eval :
    cells_to_tables gridCells =
      [[Bbox.mk 0 0 50 50, Bbox.mk 0 0 50 100, Bbox.mk 50 0 100 50,
        Bbox.mk 50 0 100 100, Bbox.mk 0 50 50 100, Bbox.mk 50 50 100 100]] := by
  have hnil : groupLoop [] = [] := by
    rw [groupLoop]
    rfl
  have h1 : absorbLoop (gridCells.length + 1) [] [] gridCells =
      ([Bbox.mk 0 0 50 50, Bbox.mk 0 0 50 100, Bbox.mk 0 50 50 100,
        Bbox.mk 50 0 100 50, Bbox.mk 50 0 100 100, Bbox.mk 50 50 100 100], []) := by
    decide
  have hgl : groupLoop gridCells =
      [[Bbox.mk 0 0 50 50, Bbox.mk 0 0 50 100, Bbox.mk 50 0 100 50,
        Bbox.mk 50 0 100 100, Bbox.mk 0 50 50 100, Bbox.mk 50 50 100 100]] := by
    rw [groupLoop]
    simp only [h1, hnil]
    decide
  simp only [cells_to_tables, hgl]
  decide

/-- C1 (amended): for the synthetic 3 by 3 grid of edges,
`edges_to_intersections` with tolerance 1 per axis yields exactly 9
intersection vertices, `intersections_to_cells` yields exactly the 6
cells of `gridCells` (the four 50 by 50 minimal cells plus the two
spanning cells), and `cells_to_tables` collapses them into exactly one
table — a table that contains all 6 of those cells (not 4: the spanning
cells are never discarded), sorted top-to-bottom, left-to-right. -/
theorem grid_pipeline :
    (edges_to_intersections gridEdges 1 1).length = 9 ∧
      intersections_to_cells (edges_to_intersections gridEdges 1 1) gridEdges = gridCells ∧
      cells_to_tables gridCells =
        [[Bbox.mk 0 0 50 50, Bbox.mk 0 0 50 100, Bbox.mk 50 0 100 50,
          Bbox.mk 50 0 100 100, Bbox.mk 0 50 50 100, Bbox.mk 50 50 100 100]] :=
  ⟨by decide, grid_cells_eval, grid_tables_eval⟩

/-- C1 counterexample: the unique table grouped from the six grid cells
holds 6 cells, not the 4 cells the claim states. -/
theorem grid_pipeline_counterexample :
    (cells_to_tables gridCells).map List.length = [6] ∧ (6 : Nat) ≠ 4 := by
  rw [grid_tables_eval]
  decide

/-! ## DetectedTable and rows (table_finder.rs) -/

/-- `DetectedTable` from table_finder.rs. -/
structure DetectedTable : Type where
  cells : List Bbox
  bbox : Bbox
deriving DecidableEq, Repr

/-- `f64::EPSILON`, the dedup threshold in `DetectedTable::rows`. -/
def f64Epsilon : ℚ := 1 / 2 ^ 52

/-- The walk of `Vec::dedup_by(|a, b| (*a - *b).abs() < f64::EPSILON)`:
drop each value whose distance to the last kept value is below epsilon. -/
def dedupEpsGo (last : ℚ) : List ℚ → List ℚ
  | [] => []
  | y :: ys => if |y - last| < f64Epsilon then dedupEpsGo last ys else y :: dedupEpsGo y ys

/-- `Vec::dedup_by` with the epsilon predicate of `DetectedTable::rows`. -/
def dedupEps : List ℚ → List ℚ
  | [] => []
  | x :: xs => x :: dedupEpsGo x xs

/-- The column grid of `DetectedTable::rows`: the sorted x0 values of
the table's cells, deduplicated at `f64::EPSILON`. -/
def rowXValues (t : DetectedTable) : List ℚ :=
  dedupEps (List.insertionSort (fun a b : ℚ => a ≤ b) (t.cells.map (fun c => c.x0)))

/-- The `BTreeMap` row grouping of `DetectedTable::rows`: cells grouped
by their `top` coordinate, groups in ascending key order. The source
iterates keys in ascending `to_bits` order, which agrees with ascending
value order on the non-negative coordinates of this pipeline. -/
def byTopGroups (cells : List Bbox) : List (List Bbox) :=
  ((List.insertionSort (fun a b : ℚ => a ≤ b) (cells.map (fun c => c.top))).dedup).map
    (fun t => cells.filter (fun c => c.top = t))

/-- The `HashMap` column lookup of `DetectedTable::rows`: the map is
collected from the row's cells in order, so on duplicate x0 keys the
last cell wins. -/
def rowLookup (row_cells : List Bbox) (x : ℚ) : Option Bbox :=
  row_cells.reverse.find? (fun c => c.x0 = x)

/-- `DetectedTable::rows` from table_finder.rs. -/
def DetectedTable.rows (t : DetectedTable) : List (List (Option Bbox)) :=
  if t.cells.isEmpty then []
  else
    (byTopGroups t.cells).map (fun row_cells =>
      (rowXValues t).map (fun x => rowLookup row_cells x))

/-! ## Styled text (table_finder.rs) -/

/-- `TextStyle` from table_finder.rs: bold, italic and monospaced flags.
The source type has no strikethrough flag. -/
structure TextStyle : Type where
  bold : Bool
  italic : Bool
  monospaced : Bool
deriving DecidableEq, Repr

/-- `TextStyle::default()`: all flags off. -/
def TextStyle.default : TextStyle := ⟨false, false, false⟩

/-- `StyledCellText` from table_finder.rs. -/
structure StyledCellText : Type where
  plain : List Char
  styled : List Char
  has_bold : Bool
deriving DecidableEq, Repr

/-- `CharPos` from table_finder.rs: one character with glyph-centre
coordinates, style flags, and the line coordinate used for break
detection. -/
structure CharPos : Type where
  ch : Char
  mid_x : ℚ
  mid_y : ℚ
  style : TextStyle
  line_y : ℚ
deriving DecidableEq, Repr

/-- The `Run` struct local to `build_styled_text`. -/
structure Run : Type where
  text : List Char
  style : TextStyle
deriving DecidableEq, Repr

/-- The loop state of the run-grouping phase of `build_styled_text`. -/
structure RunState : Type where
  runs : List Run
  current_text : List Char
  current_style : TextStyle
  prev_line_y : ℚ
deriving DecidableEq, Repr

/-- `line_break_threshold` from `build_styled_text` (5.0 PDF units). -/
def line_break_threshold : ℚ := 5

/-- One character step of the run-grouping loop in `build_styled_text`:
flush on a line break (pushing the end-trimmed run, when non-empty, and
a `"\n"` sentinel run), flush on a style change, then append the
character. -/
def groupRunsStep (st : RunState) (c : CharPos) : RunState :=
  let st :=
    if |c.line_y - st.prev_line_y| > line_break_threshold ∧ st.current_text ≠ [] then
      { runs := (st.runs ++
            (if wsTrimEnd st.current_text ≠ [] then
              [⟨wsTrimEnd st.current_text, st.current_style⟩] else [])) ++
          [⟨['\n'], TextStyle.default⟩],
        current_text := [], current_style := c.style, prev_line_y := st.prev_line_y }
    else st
  let st :=
    if c.style ≠ st.current_style ∧ st.current_text ≠ [] then
      { runs := st.runs ++ [⟨st.current_text, st.current_style⟩],
        current_text := [], current_style := c.style, prev_line_y := st.prev_line_y }
    else st
  { st with current_text := st.current_text ++ [c.ch], prev_line_y := c.line_y }

/-- The run-grouping phase of `build_styled_text`: walk the characters
with `groupRunsStep` (the state starts from the first character's style
and line coordinate), then flush the last run. -/
def groupRuns : List CharPos → List Run
  | [] => []
  | c0 :: rest =>
    let st := (c0 :: rest).foldl groupRunsStep ⟨[], [], c0.style, c0.line_y⟩
    st.runs ++ (if st.current_text ≠ [] then [⟨st.current_text, st.current_style⟩] else [])

/-- The backtick character used for monospaced markers. -/
def backtickChar : Char := Char.ofNat 96

/-- One run emission of the output loop in `build_styled_text`: a
sentinel run emits `<br>`; an all-whitespace run is emitted verbatim;
otherwise emit the leading whitespace, the trimmed inner text wrapped by
the style markers applied in the source order (monospaced, then italic,
then bold), and the trailing whitespace. -/
def runOutputStep (output : List Char) (run : Run) : List Char :=
  if run.text = ['\n'] then output ++ ['<', 'b', 'r', '>']
  else if wsTrim run.text = [] then output ++ run.text
  else
    let leading_ws := run.text.take (run.text.length - (wsTrimStart run.text).length)
    let trailing_ws := run.text.drop (wsTrimEnd run.text).length
    let inner := wsTrim run.text
    let styled := inner
    let styled := if run.style.monospaced then [backtickChar] ++ styled ++ [backtickChar] else styled
    let styled := if run.style.italic then ['_'] ++ styled ++ ['_'] else styled
    let styled := if run.style.bold then ['*', '*'] ++ styled ++ ['*', '*'] else styled
    output ++ leading_ws ++ styled ++ trailing_ws

/-- `build_styled_text` from table_finder.rs. -/
def build_styled_text (chars : List CharPos) : List Char :=
  if chars.isEmpty then []
  else wsTrim ((groupRuns chars).foldl runOutputStep [])

/-- The cell-membership test of `extract_table_text_styled`: the glyph
centre must lie in the half-open cell box. -/
def charInCell (cell : Bbox) (c : CharPos) : Bool :=
  c.mid_x ≥ cell.x0 && c.mid_x < cell.x1 && c.mid_y ≥ cell.top && c.mid_y < cell.bottom

/-- The reading-order comparator of `extract_table_text_styled`:
`(mid_y, mid_x)` ascending. -/
def charLe (a b : CharPos) : Prop := lexLe (a.mid_y, a.mid_x) (b.mid_y, b.mid_x)

instance charLe.decidable : DecidableRel charLe := fun a b => by
  unfold charLe; infer_instance

/-- The characters assigned to one cell, in reading order. -/
def cellCharsSorted (chars_data : List CharPos) (cell : Bbox) : List CharPos :=
  List.insertionSort charLe (chars_data.filter (charInCell cell))

/-- The per-cell body of `extract_table_text_styled`: plain text is the
cell's characters concatenated and trimmed; styled text comes from
`build_styled_text`; a missing cell yields empty strings. -/
def cellStyledText (chars_data : List CharPos) : Option Bbox → StyledCellText
  | some cell =>
    { plain := wsTrim ((cellCharsSorted chars_data cell).map (fun c => c.ch)),
      styled := build_styled_text (cellCharsSorted chars_data cell),
      has_bold := (cellCharsSorted chars_data cell).any (fun c => c.style.bold) }
  | none => ⟨[], [], false⟩

/-- `extract_table_text_styled` from table_finder.rs, over the page's
character data (`chars_data` stands for the characters the pdfium
collaborator exposes, already converted to `CharPos`). -/
def extract_table_text_styled (t : DetectedTable) (chars_data : List CharPos) :
    List (List StyledCellText) :=
  (t.rows).map (fun row => row.map (cellStyledText chars_data))

/-- `extract_table_text` from table_finder.rs: the plain projection of
`extract_table_text_styled`. -/
def extract_table_text (t : DetectedTable) (chars_data : List CharPos) :
    List (List (List Char)) :=
  (extract_table_text_styled t chars_data).map (fun row => row.map (fun c => c.plain))

/-! ## C4: row uniformity -/

/-- C4 (amended): every row of `DetectedTable::rows` has the same
length, namely the length of the sorted x0 list deduplicated at
`f64::EPSILON`, and the matrix returned by `extract_table_text_styled`
is rectangular with that same row length. (The claim's parenthetical
"number of distinct cell x0 values" fails when two distinct x0 values
lie closer than `f64::EPSILON`; see the counterexample.) -/
theorem rows_rectangular (t : DetectedTable) :
    (∀ r ∈ t.rows, r.length = (rowXValues t).length) ∧
      ∀ (chars_data : List CharPos) (r : List StyledCellText),
        r ∈ extract_table_text_styled t chars_data → r.length = (rowXValues t).length := by
  have hrows : ∀ r ∈ t.rows, r.length = (rowXValues t).length := by
    intro r hr
    rw [DetectedTable.rows] at hr
    split at hr
    · simp at hr
    · rcases List.mem_map.mp hr with ⟨grp, _, rfl⟩
      simp
  refine ⟨hrows, ?_⟩
  intro chars_data r hr
  rw [extract_table_text_styled] at hr
  rcases List.mem_map.mp hr with ⟨row, hrow, rfl⟩
  rw [List.length_map]
  exact hrows row hrow

/-- The two-cell table whose column starts differ by less than
`f64::EPSILON`. -/
def closeColumnsTable : DetectedTable :=
  ⟨[Bbox.mk 0 0 1 1, Bbox.mk (1 / 2 ^ 53) 0 1 1], Bbox.mk 0 0 1 1⟩

/-- C4 counterexample: a table with two distinct x0 values closer than
`f64::EPSILON` has rows of length 1, not length 2 as "the number of
distinct cell x0 values" would demand. -/
theorem rows_distinct_counterexample :
    (closeColumnsTable.rows).map List.length = [1] ∧
      ((closeColumnsTable.cells.map (fun c => c.x0)).dedup).length = 2 := by
  decide

/-- A one-cell table used by concrete witnesses. -/
def singleCellTable : DetectedTable :=
  ⟨[Bbox.mk 0 0 100 100], Bbox.mk 0 0 100 100⟩

/-- C4 witness: the row-uniformity theorem applied to the one-cell
table, for its single row and for the extracted matrix row. -/
theorem rows_rectangular_witness :
    ([some (Bbox.mk 0 0 100 100)] : List (Option Bbox)).length =
        (rowXValues singleCellTable).length ∧
      ([⟨[], [], false⟩] : List StyledCellText).length =
        (rowXValues singleCellTable).length :=
  ⟨(rows_rectangular singleCellTable).1 [some (Bbox.mk 0 0 100 100)] (by decide),
   (rows_rectangular singleCellTable).2 [] [⟨[], [], false⟩] (by decide)⟩

/-! ## C2: markdown rendering of runs -/

/-- `wrapIf`: wrap a string in a marker when the flag holds. -/
def wrapIf (b : Bool) (marker : List Char) (s : List Char) : List Char :=
  if b then marker ++ s ++ marker else s

/-- The marker sequence of the claim, innermost-first: monospaced
(backticks), then italic (underscores), then bold (double asterisks).
The source supports no strikethrough marker. -/
def specWrap (style : TextStyle) (inner : List Char) : List Char :=
  wrapIf style.bold ['*', '*']
    (wrapIf style.italic ['_'] (wrapIf style.monospaced [backtickChar] inner))

/-- Rendering of one run as the amended claim describes it: a sentinel
run renders as `<br>`; a run whose text trims to empty is emitted
verbatim; any other run is emitted as its leading whitespace, its
trimmed inner text wrapped innermost-first by `specWrap`, then its
trailing whitespace. -/
def specRenderRun (run : Run) : List Char :=
  if run.text = ['\n'] then ['<', 'b', 'r', '>']
  else if wsTrim run.text = [] then run.text
  else
    run.text.takeWhile Char.isWhitespace ++ specWrap run.style (wsTrim run.text) ++
      (run.text.reverse.takeWhile Char.isWhitespace).reverse

theorem take_sub_trimStart (l : List Char) :
    l.take (l.length - (wsTrimStart l).length) = l.takeWhile Char.isWhitespace := by
  rw [wsTrimStart]
  have hlen : l.length =
      (l.takeWhile Char.isWhitespace).length + (l.dropWhile Char.isWhitespace).length := by
    rw [← List.length_append, List.takeWhile_append_dropWhile]
  rw [hlen, Nat.add_sub_cancel]
  calc l.take (l.takeWhile Char.isWhitespace).length
      = (l.takeWhile Char.isWhitespace ++ l.dropWhile Char.isWhitespace).take
          (l.takeWhile Char.isWhitespace).length := by
        rw [List.takeWhile_append_dropWhile]
    _ = l.takeWhile Char.isWhitespace := List.take_left _ _

theorem drop_trimEnd (l : List Char) :
    l.drop (wsTrimEnd l).length = (l.reverse.takeWhile Char.isWhitespace).reverse := by
  rw [wsTrimEnd, List.length_reverse]
  calc l.drop (l.reverse.dropWhile Char.isWhitespace).length
      = ((l.reverse.dropWhile Char.isWhitespace).reverse ++
            (l.reverse.takeWhile Char.isWhitespace).reverse).drop
          (l.reverse.dropWhile Char.isWhitespace).length := by
        rw [← List.reverse_append, List.takeWhile_append_dropWhile, List.reverse_reverse]
    _ = (l.reverse.takeWhile Char.isWhitespace).reverse := by
        rw [← List.length_reverse]
        exact List.drop_left _ _

theorem runOutputStep_eq (output : List Char) (run : Run) :
    runOutputStep output run = output ++ specRenderRun run := by
  rcases run with ⟨text, ⟨b, i, m⟩⟩
  rw [runOutputStep, specRenderRun]
  by_cases h1 : text = ['\n']
  · simp [h1]
  · simp only [h1, if_false]
    by_cases h2 : wsTrim text = []
    · simp [h2]
    · simp only [h2, if_false]
      have hlead := take_sub_trimStart text
      have htrail := drop_trimEnd text
      cases b <;> cases i <;> cases m <;>
        simp [specWrap, wrapIf, hlead, htrail, List.append_assoc]

theorem foldl_runOutputStep (runs : List Run) (output : List Char) :
    runs.foldl runOutputStep output = output ++ (runs.map specRenderRun).flatten := by
  induction runs generalizing output with
  | nil => simp
  | cons r rest ih =>
    rw [List.foldl_cons, runOutputStep_eq, ih, List.map_cons, List.flatten_cons,
      List.append_assoc]

/-- C2 (amended): for every sequence of cell characters,
`build_styled_text` equals the trim of the concatenation of the per-run
renderings `specRenderRun` over the style runs of `groupRuns`: every
non-sentinel run that does not trim to empty is emitted as its leading
whitespace, its trimmed inner text wrapped innermost-first in the fixed
order monospaced, italic, bold, then its trailing whitespace; a
sentinel run renders as `<br>`; a run trimming to empty is emitted
verbatim. The source `TextStyle` carries no strikethrough flag, and no
run is ever wrapped in `~~` (see the counterexample). -/
theorem build_styled_text_renders_runs (chars : List CharPos) :
    build_styled_text chars = wsTrim (((groupRuns chars).map specRenderRun).flatten) := by
  cases chars with
  | nil => rfl
  | cons c rest =>
    rw [build_styled_text]
    simp only [List.isEmpty_cons, Bool.false_eq_true, if_false]
    rw [foldl_runOutputStep]
    simp

/-- All eight value combinations of the source `TextStyle`. -/
def allStyles : List TextStyle :=
  [⟨false, false, false⟩, ⟨false, false, true⟩, ⟨false, true, false⟩, ⟨false, true, true⟩,
   ⟨true, false, false⟩, ⟨true, false, true⟩, ⟨true, true, false⟩, ⟨true, true, true⟩]

/-- C2 counterexample: no style a character can carry makes
`build_styled_text` emit a tilde, and the maximally styled character
renders with exactly the three markers, bold outermost — there is no
strikethrough wrapping, contradicting the claim's `~~ ~~` clause. -/
theorem no_strikethrough_counterexample :
    (allStyles.all fun s =>
        !((build_styled_text [CharPos.mk 'x' 0 0 s 0]).contains '~')) = true ∧
      build_styled_text [CharPos.mk 'x' 0 0 (TextStyle.mk true true true) 0] =
        ['*', '*', '_', backtickChar, 'x', backtickChar, '_', '*', '*'] := by
  decide

/-! ## C3: plain cell text -/

/-- Modelled from the claim for comparison only: collapse every run of
whitespace to a single space (the source implements no such collapse). -/
def collapseWs : List Char → List Char
  | [] => []
  | [c] => [if c.isWhitespace then ' ' else c]
  | c1 :: c2 :: rest =>
    if c1.isWhitespace && c2.isWhitespace then collapseWs (c2 :: rest)
    else (if c1.isWhitespace then ' ' else c1) :: collapseWs (c2 :: rest)

/-- Modelled from the claim for comparison only: the normalisation claim
C3 ascribes to the plain text (line-break sentinels rendered as a
space, trimmed, internal whitespace collapsed). -/
def specNormalizePlain (chars : List Char) : List Char :=
  collapseWs (wsTrim (chars.map (fun c => if c = '\n' then ' ' else c)))

/-- The characters `a`, space, space, `b` on one line inside
`singleCellTable`. -/
def charsAB : List CharPos :=
  [⟨'a', 10, 10, TextStyle.default, 0⟩, ⟨' ', 20, 10, TextStyle.default, 0⟩,
   ⟨' ', 30, 10, TextStyle.default, 0⟩, ⟨'b', 40, 10, TextStyle.default, 0⟩]

/-- C3 counterexample: the plain text of a cell containing `a`, two
spaces, `b` keeps both internal spaces (two consecutive whitespace
characters), while the claim's normalisation would collapse them. -/
theorem plain_not_collapsed_counterexample :
    extract_table_text singleCellTable charsAB = [[['a', ' ', ' ', 'b']]] ∧
      specNormalizePlain ['a', ' ', ' ', 'b'] = ['a', ' ', 'b'] ∧
      (['a', ' ', ' ', 'b'] : List Char) ≠ ['a', ' ', 'b'] := by
  decide

/-- C3 (amended): for every cell of every detected table, the plain
string returned by `extract_table_text_styled` equals the cell's
characters in reading order, concatenated and trimmed — with no
line-break sentinel spacing and no internal whitespace collapsing. -/
theorem plain_is_trimmed_cell_text (t : DetectedTable) (chars_data : List CharPos)
    (i j : Nat) (cell : Bbox)
    (hcell : (t.rows[i]?.bind fun row => row[j]?) = some (some cell)) :
    ((extract_table_text_styled t chars_data)[i]?.bind fun row => row[j]?).map
        (fun st => st.plain) =
      some (wsTrim ((cellCharsSorted chars_data cell).map (fun c => c.ch))) := by
  rcases hrow : t.rows[i]? with _ | row
  · rw [hrow] at hcell
    simp at hcell
  · rw [hrow] at hcell
    have hj : row[j]? = some (some cell) := by simpa using hcell
    rw [extract_table_text_styled, List.getElem?_map, hrow]
    simp [hj, cellStyledText]

/-- C3 witness: the amended theorem applied to the one-cell table and
the `a`, space, space, `b` characters. -/
theorem plain_is_trimmed_cell_text_witness :
    ((extract_table_text_styled singleCellTable charsAB)[0]?.bind fun row => row[0]?).map
        (fun st => st.plain) =
      some (wsTrim ((cellCharsSorted charsAB (Bbox.mk 0 0 100 100)).map (fun c => c.ch))) :=
  plain_is_trimmed_cell_text singleCellTable charsAB 0 0 (Bbox.mk 0 0 100 100) (by decide)

/-! ## hierarchy.rs: bounding boxes and block merging -/

/-- `BoundingBox` from hierarchy.rs (f32 coordinates in the source). -/
structure BoundingBox : Type where
  left : ℚ
  top : ℚ
  right : ℚ
  bottom : ℚ
deriving DecidableEq, Repr

/-- `BoundingBox::calculate_area` from hierarchy.rs: width and height
clamped at zero. -/
def BoundingBox.calculate_area (b : BoundingBox) : ℚ :=
  max (b.right - b.left) 0 * max (b.bottom - b.top) 0

/-- `BoundingBox::calculate_intersection_area` from hierarchy.rs. -/
def BoundingBox.calculate_intersection_area (b o : BoundingBox) : ℚ :=
  max (min b.right o.right - max b.left o.left) 0 *
    max (min b.bottom o.bottom - max b.top o.top) 0

/-- `BoundingBox::intersection_ratio` from hierarchy.rs: intersection
area over this box's own area; zero when the box has no area. -/
def BoundingBox.intersection_ratio (b o : BoundingBox) : ℚ :=
  if b.calculate_area ≤ 0 then 0
  else b.calculate_intersection_area o / b.calculate_area

/-- `CharData` from hierarchy.rs. -/
structure CharData : Type where
  text : List Char
  x : ℚ
  y : ℚ
  font_size : ℚ
  width : ℚ
  height : ℚ
deriving DecidableEq, Repr

/-- The character bbox `(x, y - h, x + w, y)` built at the top of
`merge_chars_into_blocks`. -/
def charBbox (c : CharData) : BoundingBox :=
  ⟨c.x, c.y - c.height, c.x + c.width, c.y⟩

/-- The `(top, left)` sort comparator at the top of
`merge_chars_into_blocks`. -/
def charBoxLe (a b : CharData × BoundingBox) : Prop :=
  lexLe (a.2.top, a.2.left) (b.2.top, b.2.left)

instance charBoxLe.decidable : DecidableRel charBoxLe := fun a b => by
  unfold charBoxLe; infer_instance

/-- The absorb decision of the inner loop of `merge_chars_into_blocks`
(hierarchy.rs lines 292-316). The `avg_font_size` the source computes is
the maximum of the block bbox height and the character bbox height. -/
def merge_condition (block_bbox next_bbox : BoundingBox) : Bool :=
  let avg_font_size :=
    max (block_bbox.bottom - block_bbox.top) (next_bbox.bottom - next_bbox.top)
  let intersection_threshold : ℚ := 1 / 20
  let ratio := block_bbox.intersection_ratio next_bbox
  let self_center_x := (block_bbox.left + block_bbox.right) / 2
  let self_center_y := (block_bbox.top + block_bbox.bottom) / 2
  let other_center_x := (next_bbox.left + next_bbox.right) / 2
  let other_center_y := (next_bbox.top + next_bbox.bottom) / 2
  let dx := |self_center_x - other_center_x|
  let dy := |self_center_y - other_center_y|
  let x_threshold := avg_font_size * 2
  let y_threshold := avg_font_size * (3 / 2)
  let merge_by_distance := decide (dx < x_threshold) && decide (dy < y_threshold)
  merge_by_distance || decide (ratio > intersection_threshold)

/-- One full scan over the unused characters after the seed (the inner
`for j` loop of `merge_chars_into_blocks`): each absorbed character
extends the block and its bbox immediately; the flag records whether the
scan absorbed anything. -/
def mergeScan (block_bbox : BoundingBox) (current_block : List CharData) :
    List (CharData × BoundingBox) →
      BoundingBox × List CharData × List (CharData × BoundingBox) × Bool
  | [] => (block_bbox, current_block, [], false)
  | cb :: rest =>
    if merge_condition block_bbox cb.2 then
      let expanded : BoundingBox :=
        ⟨min block_bbox.left cb.2.left, min block_bbox.top cb.2.top,
         max block_bbox.right cb.2.right, max block_bbox.bottom cb.2.bottom⟩
      let res := mergeScan expanded (current_block ++ [cb.1]) rest
      (res.1, res.2.1, res.2.2.1, true)
    else
      let res := mergeScan block_bbox current_block rest
      (res.1, res.2.1, cb :: res.2.2.1, res.2.2.2)

/-- The `while changed` loop of `merge_chars_into_blocks`: rescan until
a scan absorbs no character. Every continuing scan absorbs at least one
character, so a fuel of `remaining + 1` scans reaches the fixpoint of
the source loop. -/
def mergeLoop : Nat → BoundingBox → List CharData → List (CharData × BoundingBox) →
    List CharData × List (CharData × BoundingBox)
  | 0, _, block, rest => (block, rest)
  | fuel + 1, bbox, block, rest =>
    let res := mergeScan bbox block rest
    if res.2.2.2 then mergeLoop fuel res.1 res.2.1 res.2.2.1
    else (res.2.1, res.2.2.1)

theorem mergeScan_rest_le (bbox : BoundingBox) (block : List CharData)
    (rest : List (CharData × BoundingBox)) :
    (mergeScan bbox block rest).2.2.1.length ≤ rest.length := by
  induction rest generalizing bbox block with
  | nil => simp [mergeScan]
  | cons cb rest ih =>
    unfold mergeScan
    by_cases h : merge_condition bbox cb.2
    · simp only [h, if_true]
      exact le_trans (ih _ _) (Nat.le_succ _)
    · simp only [h, if_false, List.length_cons]
      exact Nat.succ_le_succ (ih _ _)

theorem mergeLoop_rest_le (fuel : Nat) (bbox : BoundingBox) (block : List CharData)
    (rest : List (CharData × BoundingBox)) :
    (mergeLoop fuel bbox block rest).2.length ≤ rest.length := by
  induction fuel generalizing bbox block rest with
  | zero => simp [mergeLoop]
  | succ n ih =>
    unfold mergeLoop
    by_cases h : (mergeScan bbox block rest).2.2.2
    · simp only [h, if_true]
      exact le_trans (ih _ _ _) (mergeScan_rest_le _ _ _)
    · simp only [h, if_false]
      exact mergeScan_rest_le _ _ _

/-- The outer `for i` loop of `merge_chars_into_blocks`: each still
unused character seeds a block, which grows to its absorption fixpoint;
the block is pushed and the loop continues over the characters that
remain unused. -/
def blockLoop : List (CharData × BoundingBox) → List (List CharData)
  | [] => []
  | cb :: rest =>
    let res := mergeLoop (rest.length + 1) cb.2 [cb.1] rest
    res.1 :: blockLoop res.2
termination_by l => l.length
decreasing_by
  exact Nat.lt_succ_of_le (mergeLoop_rest_le _ _ _ _)

/-- `TextBlock` from hierarchy.rs. The source folds `f32::min`/`f32::max`
from the infinities; the embedding keeps those folds in `WithTop ℚ` and
`WithBot ℚ`, with `⊤`/`⊥` standing for the infinite starting values. -/
structure TextBlock : Type where
  text : List Char
  left : WithTop ℚ
  top : WithTop ℚ
  right : WithBot ℚ
  bottom : WithBot ℚ
  font_size : ℚ
deriving DecidableEq

/-- `merge_chars_into_blocks` from hierarchy.rs. -/
def merge_chars_into_blocks (chars : List CharData) : List TextBlock :=
  if chars.isEmpty then []
  else
    let char_boxes := List.insertionSort charBoxLe (chars.map (fun c => (c, charBbox c)))
    (blockLoop char_boxes).map (fun block =>
      { text := (block.map (fun c => c.text)).flatten,
        left := block.foldl (fun acc c => min acc (c.x : WithTop ℚ)) ⊤,
        top := block.foldl (fun acc c => min acc ((c.y - c.height : ℚ) : WithTop ℚ)) ⊤,
        right := block.foldl (fun acc c => max acc ((c.x + c.width : ℚ) : WithBot ℚ)) ⊥,
        bottom := block.foldl (fun acc c => max acc ((c.y : ℚ) : WithBot ℚ)) ⊥,
        font_size := (block.map (fun c => c.font_size)).sum / (block.length : ℚ) })

/-- C9 (amended): the absorb decision applied to every unused character
inside `merge_chars_into_blocks` holds exactly when the centre distances
satisfy `dx < 2 * m` and `dy < 1.5 * m` for `m` the maximum of the block
bbox height and the character bbox height (not the average font size the
claim states — see the counterexample), or when the character's
intersection ratio with the growing block bbox exceeds 0.05; the scan is
repeated until a pass absorbs no character (`mergeLoop`). -/
theorem merge_condition_characterisation (block_bbox next_bbox : BoundingBox) :
    merge_condition block_bbox next_bbox = true ↔
      ((|(block_bbox.left + block_bbox.right) / 2 - (next_bbox.left + next_bbox.right) / 2| <
          2 * max (block_bbox.bottom - block_bbox.top) (next_bbox.bottom - next_bbox.top) ∧
        |(block_bbox.top + block_bbox.bottom) / 2 - (next_bbox.top + next_bbox.bottom) / 2| <
          (3 / 2) * max (block_bbox.bottom - block_bbox.top) (next_bbox.bottom - next_bbox.top)) ∨
        block_bbox.intersection_ratio next_bbox > 1 / 20) := by
  rw [merge_condition]
  simp only [Bool.or_eq_true, Bool.and_eq_true, decide_eq_true_eq]
  rw [mul_comm _ (2 : ℚ), mul_comm _ ((3 : ℚ) / 2)]

/-- A tall character: bbox `(0, 0, 6, 10)`, font size 10. -/
def charA : CharData := ⟨['A'], 0, 10, 10, 6, 10⟩

/-- A small character to its right: bbox `(20, 8, 22, 10)`, font size 2. -/
def charB : CharData := ⟨['B'], 20, 10, 2, 2, 2⟩

/-- Modelled from the claim for comparison only: the absorb test with
`avg_font_size` read as the average of the block and character font
sizes, as claim C9 words it. -/
def claimAbsorbCond (block_font_size : ℚ) (block_bbox : BoundingBox) (c : CharData) : Bool :=
  let avg_font_size := (block_font_size + c.font_size) / 2
  let next_bbox := charBbox c
  let dx := |(block_bbox.left + block_bbox.right) / 2 - (next_bbox.left + next_bbox.right) / 2|
  let dy := |(block_bbox.top + block_bbox.bottom) / 2 - (next_bbox.top + next_bbox.bottom) / 2|
  (decide (dx < 2 * avg_font_size) && decide (dy < (3 / 2) * avg_font_size)) ||
    decide (block_bbox.intersection_ratio next_bbox > 1 / 20)

/-- C9 counterexample: the code absorbs `charB` into the block seeded by
`charA` (their centre distance 18 is below `2 * max-height = 20`), and
the merge yields a single block `AB`; under the claim's reading
(`avg_font_size` = average of the font sizes, 6) the distance test
`18 < 12` fails and no absorption would happen. -/
theorem merge_avg_font_counterexample :
    (merge_chars_into_blocks [charA, charB]).map (fun b => b.text) = [['A', 'B']] ∧
      merge_condition (charBbox charA) (charBbox charB) = true ∧
      claimAbsorbCond charA.font_size (charBbox charA) charB = false := by
  refine ⟨?_, by decide, by decide⟩
  have hsort : List.insertionSort charBoxLe
      ([charA, charB].map (fun c => (c, charBbox c))) =
      [(charA, charBbox charA), (charB, charBbox charB)] := by decide
  have hloop : mergeLoop ((([(charB, charBbox charB)] : List (CharData × BoundingBox))).length + 1)
      (charA, charBbox charA).2 [(charA, charBbox charA).1] [(charB, charBbox charB)] =
      ([charA, charB], []) := by decide
  have hblock : blockLoop [(charA, charBbox charA), (charB, charBbox charB)] =
      [[charA, charB]] := by
    rw [blockLoop]
    simp only [hloop]
    rw [blockLoop]
  rw [merge_chars_into_blocks]
  simp only [List.isEmpty_cons, Bool.false_eq_true, if_false, hsort, hblock]
  decide

/-! ## types/tables.rs -/

/-- `TableHeader` from types/tables.rs. -/
structure TableHeader : Type where
  names : List (List Char)
  external : Bool
  row_index : Nat
deriving DecidableEq, Repr

/-- `Table` from types/tables.rs. -/
structure Table : Type where
  cells : List (List (List Char))
  markdown : List Char
  page_number : Nat
  header : Option TableHeader
deriving DecidableEq, Repr

/-- The `cell.replace(char, "\"\"")` escape in `Table::to_csv`: each
inner double quote becomes two double quotes. -/
def escapeQuotes (cell : List Char) : List Char :=
  cell.flatMap (fun c => if c = '"' then ['"', '"'] else [c])

/-- `Table::to_csv` from types/tables.rs: cells joined by commas, rows
terminated by a newline; a cell containing a comma, a double quote or a
newline is wrapped in double quotes with inner quotes doubled. -/
def Table.to_csv (t : Table) : List Char :=
  t.cells.foldl
    (fun csv row =>
      ((row.enum).foldl
        (fun csv ic =>
          let csv := if ic.1 > 0 then csv ++ [','] else csv
          let needs_quoting :=
            ic.2.contains ',' || ic.2.contains '"' || ic.2.contains '\n'
          if needs_quoting then csv ++ ['"'] ++ escapeQuotes ic.2 ++ ['"']
          else csv ++ ic.2)
        csv) ++ ['\n'])
    []

/-- A single-cell table used by the C8 quoting characterisation. -/
def singletonTable (cell : List Char) : Table :=
  ⟨[[cell]], [], 1, none⟩

/-- C8: `to_csv` of the claim's concrete single-row table is exactly the
claimed string, and for every cell, the emitted CSV of a one-cell table
starts with a double quote exactly when the cell contains a comma, a
double quote, or a newline (the quoting condition of the source). -/
theorem to_csv_quoting :
    Table.to_csv
        ⟨[[("has,comma").toList, ("has\"quote").toList, ("has\nnewline").toList,
           ("plain").toList]], [], 1, none⟩ =
      ("\"has,comma\",\"has\"\"quote\",\"has\nnewline\",plain\n").toList ∧
      ∀ cell : List Char,
        ((singletonTable cell).to_csv).head? = some '"' ↔
          (',' ∈ cell ∨ '"' ∈ cell ∨ '\n' ∈ cell) := by
  refine ⟨by decide, ?_⟩
  intro cell
  have hciff : (cell.contains ',' || cell.contains '"' || cell.contains '\n') = true ↔
      (',' ∈ cell ∨ '"' ∈ cell ∨ '\n' ∈ cell) := by
    simp [List.elem_iff, or_assoc]
  rw [singletonTable, Table.to_csv]
  simp only [List.foldl_cons, List.foldl_nil, List.enum, List.enumFrom, gt_iff_lt,
    lt_self_iff_false, if_false]
  by_cases hq : (cell.contains ',' || cell.contains '"' || cell.contains '\n') = true
  · simp only [hq, if_true, List.cons_append, List.head?_cons]
    simp [hciff.mp hq]
  · simp only [Bool.not_eq_true] at hq
    have hnot : ¬ (',' ∈ cell ∨ '"' ∈ cell ∨ '\n' ∈ cell) := by
      rw [← hciff, hq]
      simp
    simp only [hq, Bool.false_eq_true, if_false]
    rcases cell with _ | ⟨c, rest⟩
    · simp [hnot]
    · constructor
      · intro h
        have hc : c = '"' := by simpa using h
        exact absurd (Or.inr (Or.inl (by rw [← hc]; exact List.mem_cons_self c rest))) hnot
      · intro h
        exact absurd h hnot

/-! ## pdf/split.rs -/

/-- Modelled from the spec: the pdf error taxonomy. `PdfError` is
declared in a module not among the sources; the variants follow the
spec's error taxonomy section and the constructors split.rs uses. -/
inductive PdfError : Type where
  | InvalidPdf : List Char → PdfError
  | PasswordRequired : PdfError
  | InvalidPassword : PdfError
  | PageNotFound : Nat → PdfError
  | TextExtractionFailed : List Char → PdfError
  | IOError : List Char → PdfError
  | Validation : List Char → PdfError
  | UnsupportedFormat : List Char → PdfError
deriving DecidableEq, Repr

/-- The lopdf `Document` collaborator, abstracted to what split.rs
observes: whether the document reports encryption, which passwords
decrypt it, and its page count. -/
structure Document : Type where
  is_encrypted : Bool
  decrypt_ok : List Char → Bool
  page_count : Nat

/-- `PageRange` from split.rs (1-indexed, inclusive). The source field
`end` is a Lean keyword, renamed `stop`. -/
structure PageRange : Type where
  start : Nat
  stop : Nat
deriving DecidableEq, Repr

/-- `PageRange::new` from split.rs. -/
def PageRange.new (start stop : Nat) : PageRange := ⟨start, stop⟩

/-- `PageRange::single` from split.rs. -/
def PageRange.single (page : Nat) : PageRange := ⟨page, page⟩

/-- `load_document` from split.rs. `load_mem` stands for the outcome of
the external `Document::load_mem(pdf_bytes)` parse. -/
def load_document (load_mem : Except (List Char) Document)
    (password : Option (List Char)) : Except PdfError Document :=
  match load_mem with
  | Except.error e =>
    Except.error (PdfError.InvalidPdf (("Failed to load PDF: ").toList ++ e))
  | Except.ok doc =>
    if doc.is_encrypted then
      match password with
      | some pwd =>
        if doc.decrypt_ok pwd then Except.ok doc
        else Except.error PdfError.InvalidPassword
      | none => Except.error PdfError.PasswordRequired
    else Except.ok doc

/-- `validate_range` from split.rs. The source formats the offending
values into the `InvalidPdf` message; the embedding keeps a fixed
message. -/
def validate_range (range : PageRange) (page_count : Nat) : Except PdfError Unit :=
  if range.start = 0 then Except.error (PdfError.PageNotFound 0)
  else if range.start > page_count then Except.error (PdfError.PageNotFound range.start)
  else if range.stop > page_count then Except.error (PdfError.PageNotFound range.stop)
  else if range.start > range.stop then
    Except.error (PdfError.InvalidPdf (("Invalid page range").toList))
  else Except.ok ()

/-- `(range.start..=range.end).collect()` from split.rs. -/
def pagesToKeep (range : PageRange) : List Nat :=
  List.range' range.start (range.stop + 1 - range.start)

/-- `split_pdf_with_password` from split.rs. `extract_pages` stands for
the lopdf clone-delete-prune-serialise helper; the bytes it would
produce are abstracted as lists. -/
def split_pdf_with_password (load_mem : Except (List Char) Document)
    (extract_pages : Document → List Nat → Except PdfError (List Nat))
    (ranges : List PageRange) (password : Option (List Char)) :
    Except PdfError (List (List Nat)) :=
  if ranges.isEmpty then Except.ok []
  else
    match load_document load_mem password with
    | Except.error e => Except.error e
    | Except.ok doc =>
      ranges.mapM (fun range =>
        (validate_range range doc.page_count).bind fun _ =>
          extract_pages doc (pagesToKeep range))

/-- `split_pdf` from split.rs. -/
def split_pdf (load_mem : Except (List Char) Document)
    (extract_pages : Document → List Nat → Except PdfError (List Nat))
    (ranges : List PageRange) : Except PdfError (List (List Nat)) :=
  split_pdf_with_password load_mem extract_pages ranges none

/-- `split_pdf_into_pages_with_password` from split.rs. -/
def split_pdf_into_pages_with_password (load_mem : Except (List Char) Document)
    (extract_pages : Document → List Nat → Except PdfError (List Nat))
    (password : Option (List Char)) : Except PdfError (List (List Nat)) :=
  match load_document load_mem password with
  | Except.error e => Except.error e
  | Except.ok doc =>
    (List.range' 1 doc.page_count).mapM (fun page_num => extract_pages doc [page_num])

/-- The `while start <= page_count` loop of
`split_pdf_into_chunks_with_password`. The `chunk_size ≠ 0` argument is
the loop's termination warrant, established by the caller's guard. -/
def chunkLoop (extract_pages : Document → List Nat → Except PdfError (List Nat))
    (doc : Document) (chunk_size page_count : Nat) (hcs : chunk_size ≠ 0)
    (start : Nat) : Except PdfError (List (List Nat)) :=
  if start ≤ page_count then
    let stop := min (start + chunk_size - 1) page_count
    (extract_pages doc (List.range' start (stop + 1 - start))).bind fun part =>
      (chunkLoop extract_pages doc chunk_size page_count hcs (stop + 1)).map fun rest =>
        part :: rest
  else Except.ok []
termination_by page_count + 1 - start
decreasing_by
  simp_wf
  omega

/-- `split_pdf_into_chunks_with_password` from split.rs. -/
def split_pdf_into_chunks_with_password (load_mem : Except (List Char) Document)
    (extract_pages : Document → List Nat → Except PdfError (List Nat))
    (chunk_size : Nat) (password : Option (List Char)) :
    Except PdfError (List (List Nat)) :=
  if h : chunk_size = 0 then
    Except.error (PdfError.InvalidPdf (("Chunk size must be at least 1").toList))
  else
    match load_document load_mem password with
    | Except.error e => Except.error e
    | Except.ok doc => chunkLoop extract_pages doc chunk_size doc.page_count h 1

/-- `page_count_with_password` from split.rs. -/
def page_count_with_password (load_mem : Except (List Char) Document)
    (password : Option (List Char)) : Except PdfError Nat :=
  (load_document load_mem password).map (fun doc => doc.page_count)

/-! ## C7: encryption errors -/

/-- C7 (amended): on a document that reports encryption, every split
entry point fails with `PasswordRequired` when no password is supplied
(not `InvalidPassword` as the claim states — see the counterexample),
and with `InvalidPassword` when the supplied password does not decrypt
the document. For `split_pdf_with_password` the ranges must be
non-empty (empty ranges return early), and the chunk entry point needs a
non-zero chunk size (zero fails validation before loading). -/
theorem encrypted_split_errors (d : Document) (henc : d.is_encrypted = true)
    (extract_pages : Document → List Nat → Except PdfError (List Nat))
    (ranges : List PageRange) (chunk_size : Nat) :
    (ranges ≠ [] →
      split_pdf_with_password (Except.ok d) extract_pages ranges none =
        Except.error PdfError.PasswordRequired) ∧
      split_pdf_into_pages_with_password (Except.ok d) extract_pages none =
        Except.error PdfError.PasswordRequired ∧
      (chunk_size ≠ 0 →
        split_pdf_into_chunks_with_password (Except.ok d) extract_pages chunk_size none =
          Except.error PdfError.PasswordRequired) ∧
      page_count_with_password (Except.ok d) none =
        Except.error PdfError.PasswordRequired ∧
      ∀ pwd, d.decrypt_ok pwd = false →
        (ranges ≠ [] →
          split_pdf_with_password (Except.ok d) extract_pages ranges (some pwd) =
            Except.error PdfError.InvalidPassword) ∧
          split_pdf_into_pages_with_password (Except.ok d) extract_pages (some pwd) =
            Except.error PdfError.InvalidPassword ∧
          (chunk_size ≠ 0 →
            split_pdf_into_chunks_with_password (Except.ok d) extract_pages chunk_size
                (some pwd) =
              Except.error PdfError.InvalidPassword) ∧
          page_count_with_password (Except.ok d) (some pwd) =
            Except.error PdfError.InvalidPassword := by
  have hld : load_document (Except.ok d) none = Except.error PdfError.PasswordRequired := by
    simp [load_document, henc]
  refine ⟨?_, ?_, ?_, ?_, ?_⟩
  · intro hr
    rw [split_pdf_with_password, hld]
    simp [List.isEmpty_iff, hr]
  · rw [split_pdf_into_pages_with_password, hld]
  · intro hcs
    rw [split_pdf_into_chunks_with_password, dif_neg hcs, hld]
  · rw [page_count_with_password, hld]
    rfl
  · intro pwd hpwd
    have hld2 : load_document (Except.ok d) (some pwd) =
        Except.error PdfError.InvalidPassword := by
      simp [load_document, henc, hpwd]
    refine ⟨?_, ?_, ?_, ?_⟩
    · intro hr
      rw [split_pdf_with_password, hld2]
      simp [List.isEmpty_iff, hr]
    · rw [split_pdf_into_pages_with_password, hld2]
    · intro hcs
      rw [split_pdf_into_chunks_with_password, dif_neg hcs, hld2]
    · rw [page_count_with_password, hld2]
      rfl

/-- A concrete encrypted document: no password decrypts it. -/
def encryptedDoc : Document := ⟨true, fun _ => false, 3⟩

/-- A concrete extractor that returns the kept page numbers. -/
def idExtract : Document → List Nat → Except PdfError (List Nat) :=
  fun _ pages => Except.ok pages

/-- C7 counterexample: on an encrypted document with no password
supplied, the split entry point fails with `PasswordRequired`, which is
a different error from the `InvalidPassword` the claim states. -/
theorem encrypted_no_password_counterexample :
    split_pdf_with_password (Except.ok encryptedDoc) idExtract [PageRange.new 1 1] none =
        Except.error PdfError.PasswordRequired ∧
      PdfError.PasswordRequired ≠ PdfError.InvalidPassword := by
  constructor
  · rfl
  · decide

/-- C7 witness: the amended theorem applied to the concrete encrypted
document, a one-range list, chunk size one and the wrong password `x`. -/
theorem encrypted_split_errors_witness :
    split_pdf_with_password (Except.ok encryptedDoc) idExtract [PageRange.new 1 1] none =
        Except.error PdfError.PasswordRequired ∧
      split_pdf_with_password (Except.ok encryptedDoc) idExtract [PageRange.new 1 1]
          (some ['x']) =
        Except.error PdfError.InvalidPassword ∧
      split_pdf_into_chunks_with_password (Except.ok encryptedDoc) idExtract 1 none =
        Except.error PdfError.PasswordRequired :=
  ⟨(encrypted_split_errors encryptedDoc rfl idExtract [PageRange.new 1 1] 1).1
      (by decide),
   ((encrypted_split_errors encryptedDoc rfl idExtract [PageRange.new 1 1] 1).2.2.2.2
      ['x'] rfl).1 (by decide),
   (encrypted_split_errors encryptedDoc rfl idExtract [PageRange.new 1 1] 1).2.2.1
      (by decide)⟩

/-! ## C10: empty ranges short-circuit -/

/-- C10: for every load outcome (valid or invalid bytes), every
extractor and every password, `split_pdf_with_password` with an empty
ranges slice returns `Ok` with an empty vector: the early return fires
before the document is loaded or validated, so the result does not
depend on `load_mem` at all. -/
theorem split_empty_ranges (load_mem : Except (List Char) Document)
    (extract_pages : Document → List Nat → Except PdfError (List Nat))
    (password : Option (List Char)) :
    split_pdf_with_password load_mem extract_pages [] password = Except.ok [] := by
  rfl

end Kreuzberg
